import Mathlib

/-!
Verification of the `DOKVS` storage engine (`src/cfobj.ts`): a key-value
store over a single SQL table `dokvs(key, val, ttl, vtype)` with a value
codec (string / hex-encoded binary), an expiry policy, and a throttled
cleanup sweep.  The embedding below models the table as a list of rows,
time as an integer Unix timestamp, and each public operation as a pure
state transformer; the deferred `ctx.waitUntil` work of the source is
modelled as having run to completion (the runtime guarantees completion
before teardown, and the host serializes all operations).
-/

set_option autoImplicit false

namespace DOKVS

/-- The logical value domain `KVValue`: a string or a binary buffer
(bytes, each `< 256`, as produced by a `Uint8Array` view). -/
inductive KVValue where
  | str (s : String)
  | bin (b : List Nat)
deriving DecidableEq, Repr

/-- One persisted row of the `dokvs` table:
`key string primary key, val text, ttl integer, vtype integer`. -/
structure Row where
  key : String
  val : String
  ttl : Int
  vtype : Int
deriving DecidableEq, Repr

/-- Store state: the table rows plus the instance fields `#interval`
and `#timing` used by the throttled cleanup. -/
structure Store where
  rows : List Row
  interval : Int
  timing : Int
deriving DecidableEq, Repr

/-- A freshly constructed store: empty table, `#interval = 86400`,
`#timing = 0`. -/
def initStore : Store := { rows := [], interval := 86400, timing := 0 }

/-- `DOKVS.#VTYPE.string = 0`. -/
def VTYPE_string : Int := 0

/-- `DOKVS.#VTYPE.buffer = 1`. -/
def VTYPE_buffer : Int := 1

/-- Hex digit character, lowercase, as produced by `x.toString(16)`. -/
def hexChar (n : Nat) : Char :=
  if n < 10 then Char.ofNat (48 + n) else Char.ofNat (87 + n)

/-- `x.toString(16).padStart(2, "0")` for a byte `x < 256`: exactly two
lowercase hex characters, zero-padded. -/
def byteToHex (b : Nat) : String := String.mk [hexChar (b / 16), hexChar (b % 16)]

/-- `DOKVS.#bin2str`: each byte to two zero-padded lowercase hex
characters, joined. -/
def bin2str (bin : List Nat) : String := String.join (bin.map byteToHex)

/-- The chunk list produced by `str.match(/.{2}/g)`: consecutive
two-character groups, a trailing odd character dropped.  The JS call
returns `null` exactly when there is no match, i.e. when fewer than two
characters remain from the start; `chunks2` then returns `[]`. -/
def chunks2 : List Char → List (List Char)
  | c1 :: c2 :: rest => [c1, c2] :: chunks2 rest
  | _ => []

/-- Value of a hex digit character, as consumed by `parseInt(-, 16)`. -/
def hexDigit? (c : Char) : Option Nat :=
  if '0' ≤ c ∧ c ≤ '9' then some (c.toNat - 48)
  else if 'a' ≤ c ∧ c ≤ 'f' then some (c.toNat - 87)
  else if 'A' ≤ c ∧ c ≤ 'F' then some (c.toNat - 55)
  else none

/-- `parseInt(s, 16)`: value of the longest leading run of hex digits;
an empty run gives `NaN`, which the `Uint8Array` constructor then
coerces to `0`, so it is modelled as `0` here. -/
def parseIntHex : List Char → Nat → Nat
  | [], acc => acc
  | c :: rest, acc =>
    match hexDigit? c with
    | some d => parseIntHex rest (acc * 16 + d)
    | none => acc

/-- `DOKVS.#str2bin`: `none` models the `TypeError` thrown when
`str.match(/.{2}/g)` is `null` (fewer than two characters) and the
non-null assertion `!` dereferences it; otherwise each two-character
group is parsed back to a byte (`% 256` is the `Uint8Array` element
coercion). -/
def str2bin (str : String) : Option (List Nat) :=
  match chunks2 str.data with
  | [] => none
  | cs => some (cs.map (fun c => parseIntHex c 0 % 256))

/-- `DOKVS.#toStoreValue`: strings encode to themselves with vtype 0,
buffers to their hex string with vtype 1. -/
def toStoreValue : KVValue → String × Int
  | .str s => (s, VTYPE_string)
  | .bin b => (bin2str b, VTYPE_buffer)

/-- `DOKVS.#toUseValue`: decode a stored `(val, vtype)` pair.  `none`
models both the unknown-vtype fallthrough (TS `undefined`) and the
`TypeError` thrown by `#str2bin` on an unchunkable string. -/
def toUseValue (value : String) (vtype : Int) : Option KVValue :=
  if vtype = VTYPE_string then some (.str value)
  else if vtype = VTYPE_buffer then (str2bin value).map .bin
  else none

/-- The expiry filter of `#SELECT` / `#LIST`: `ttl = 0 or ttl >= t`. -/
def rowLive (r : Row) (t : Int) : Prop := r.ttl = 0 ∨ r.ttl ≥ t

instance (r : Row) (t : Int) : Decidable (rowLive r t) := by
  unfold rowLive; infer_instance

/-- `get`: executes `#SELECT` (first row with this key passing the
expiry filter) and decodes it; `undefined` when no row qualifies. -/
def get (s : Store) (key : String) (now : Int) : Option KVValue :=
  match s.rows.find? (fun r => decide (r.key = key ∧ rowLive r now)) with
  | none => none
  | some r => toUseValue r.val r.vtype

/-- `get` as a state transformer: it executes only the read-only
`#SELECT` statement, so the store is returned unchanged. -/
def getOp (s : Store) (key : String) (now : Int) : Option KVValue × Store :=
  (get s key now, s)

/-- The `#UPSERT` statement: `insert .. on conflict (key) do update set
val, ttl, vtype` — replace the row with this primary key if present,
otherwise insert a new row. -/
def upsert (rows : List Row) (key v : String) (ttl vtype : Int) : List Row :=
  if rows.any (fun r => decide (r.key = key)) then
    rows.map (fun r => if r.key = key then ⟨key, v, ttl, vtype⟩ else r)
  else rows ++ [⟨key, v, ttl, vtype⟩]

/-- `DOKVS.#cleanup`: return unchanged while `#timing >= now`;
otherwise set `#timing = now + #interval` and run `#CLEANUP`
(`delete from dokvs where ttl > 0 and ttl < now`).  The source reads
`now()` twice in immediate succession; both reads are modelled as the
same instant. -/
def cleanup (s : Store) (now : Int) : Store :=
  if s.timing ≥ now then s
  else
    { rows := s.rows.filter (fun r => !decide (0 < r.ttl ∧ r.ttl < now)),
      interval := s.interval,
      timing := now + s.interval }

/-- `put`: truncate the requested expiration (`0` when omitted; `Int`
makes `Math.trunc` the identity), silently drop the write when it is
nonzero and already past, otherwise encode the value, upsert the row
and run the throttled cleanup (the deferred `waitUntil` work, modelled
as completed). -/
def put (s : Store) (key : String) (value : KVValue) (expiration : Option Int)
    (now : Int) : Store :=
  if expiration.getD 0 ≠ 0 ∧ expiration.getD 0 < now then s
  else
    cleanup
      { s with
        rows := upsert s.rows key (toStoreValue value).1 (expiration.getD 0)
          (toStoreValue value).2 }
      now

/-- `delete`: executes only `#DELETE` (`delete from dokvs where
key = ?`); no cleanup is invoked. -/
def delete (s : Store) (key : String) : Store :=
  { s with rows := s.rows.filter (fun r => !decide (r.key = key)) }

/-- `clear`: executes only `#CLEAR` (`delete from dokvs`); no cleanup
is invoked. -/
def clear (s : Store) : Store := { s with rows := [] }

/-- ASCII-lowercase a character; SQLite `LIKE` compares ASCII letters
case-insensitively by default. -/
def asciiLower (c : Char) : Char :=
  if 'A' ≤ c ∧ c ≤ 'Z' then Char.ofNat (c.toNat + 32) else c

/-- SQLite `LIKE` pattern matching over character lists: `%` matches
any run (every suffix is tried), `_` matches exactly one character, and
other characters match ASCII-case-insensitively. -/
def likeChars : List Char → List Char → Bool
  | [], s => s.isEmpty
  | '%' :: ps, s => (s.tails).any (fun s2 => likeChars ps s2)
  | '_' :: _, [] => false
  | '_' :: ps, _ :: s2 => likeChars ps s2
  | _ :: _, [] => false
  | p :: ps, c :: s2 => asciiLower p = asciiLower c && likeChars ps s2

/-- `key like pattern` for strings. -/
def likeMatch (pattern s : String) : Bool := likeChars pattern.data s.data

/-- The LIKE pattern built by `list`: a bare `"%"` is passed through,
any other (possibly absent) prefix gets a `%` appended. -/
def listPattern (pfx : Option String) : String :=
  if pfx = some "%" then "%" else pfx.getD "" ++ "%"

/-- The limit used by `list`: default 1000, clamped to `[1, 1000]`
(`Math.trunc` is the identity on integers). -/
def listLimit (lim : Option Int) : Int := min (max (lim.getD 1000) 1) 1000

/-- `list`: executes `#LIST` (`key like ? and (ttl = 0 or ttl >= ?)
limit ?`) with timestamp `0` substituted when `ignoreTtl` is set, and
returns the `(key, ttl)` pairs. -/
def list (s : Store) (pfx : Option String) (lim : Option Int)
    (ignoreTtl : Bool) (now : Int) : List (String × Int) :=
  ((s.rows.filter
      (fun r => likeMatch (listPattern pfx) r.key
        && decide (rowLive r (if ignoreTtl then 0 else now)))).take
    (listLimit lim).toNat).map (fun r => (r.key, r.ttl))

/-- `list` as a state transformer: it executes only the read-only
`#LIST` statement, so the store is returned unchanged. -/
def listOp (s : Store) (pfx : Option String) (lim : Option Int)
    (ignoreTtl : Bool) (now : Int) : List (String × Int) × Store :=
  (list s pfx lim ignoreTtl now, s)

/-- `setCleanupInterval`: non-positive intervals are ignored; otherwise
the interval is stored (truncation is the identity on `Int`) and, when
`reset` is set, `#timing` becomes `now` plus the new interval. -/
def setCleanupInterval (s : Store) (interval : Int) (reset : Bool)
    (now : Int) : Store :=
  if interval ≤ 0 then s
  else
    { s with
      interval := interval,
      timing := if reset then now + interval else s.timing }

/-- The observable persisted actions of schema bootstrap. -/
inductive BootAction where
  | setFlag
  | createTable
  | createIndex
deriving DecidableEq, Repr

/-- `DOKVS.#createTable`: `storage.put("init", true)` first, then the
`create table` statement, then the `create index` statement. -/
def createTableActions : List BootAction :=
  [.setFlag, .createTable, .createIndex]

/-- `DOKVS.#initialize` (inside `blockConcurrencyWhile`, so exclusive):
read the persisted `"init"` flag; if set, do nothing, otherwise run
`#createTable`.  Returns the resulting flag value and the trace of
persisted actions. -/
def schemaInit (flag : Bool) : Bool × List BootAction :=
  if flag then (flag, []) else (true, createTableActions)

/-- Number of rows with a given key. -/
def countKey (rows : List Row) (key : String) : Nat :=
  (rows.filter (fun r => decide (r.key = key))).length

/-- Row well-formedness: nonnegative ttl and a known vtype code. -/
def RowOk (r : Row) : Prop :=
  0 ≤ r.ttl ∧ (r.vtype = VTYPE_string ∨ r.vtype = VTYPE_buffer)

/-- States reachable from a fresh store by the public operations,
invoked at nonnegative current times. -/
inductive Reachable : Store → Prop
  | init : Reachable initStore
  | stepPut {s : Store} (key : String) (value : KVValue)
      (expiration : Option Int) {now : Int} (h : Reachable s)
      (hnow : 0 ≤ now) : Reachable (put s key value expiration now)
  | stepDelete {s : Store} (key : String) (h : Reachable s) :
      Reachable (delete s key)
  | stepClear {s : Store} (h : Reachable s) : Reachable (clear s)
  | stepSetInterval {s : Store} (i : Int) (r : Bool) (now : Int)
      (h : Reachable s) : Reachable (setCleanupInterval s i r now)

end DOKVS

namespace DOKVS

/-! ### Codec lemmas -/

theorem foldl_append_init (xs : List String) (a : String) :
    xs.foldl (· ++ ·) a = a ++ xs.foldl (· ++ ·) "" := by
  induction xs generalizing a with
  | nil => simp
  | cons y ys ih =>
    simp only [List.foldl_cons]
    rw [ih (a ++ y), ih ("" ++ y), String.empty_append, String.append_assoc]

theorem join_cons (x : String) (xs : List String) :
    String.join (x :: xs) = x ++ String.join xs := by
  simp only [String.join, List.foldl_cons]
  rw [foldl_append_init, String.empty_append]

theorem bin2str_cons (b : Nat) (l : List Nat) :
    bin2str (b :: l) = byteToHex b ++ bin2str l := by
  simp only [bin2str, List.map_cons, join_cons]

theorem data_byteToHex (b : Nat) :
    (byteToHex b).data = [hexChar (b / 16), hexChar (b % 16)] := rfl

theorem hexDigit?_hexChar (n : Nat) (h : n < 16) :
    hexDigit? (hexChar n) = some n := by
  have hall : ∀ m : Fin 16, hexDigit? (hexChar m.1) = some m.1 := by decide
  exact hall ⟨n, h⟩

theorem parse_byteToHex (b : Nat) (hb : b < 256) :
    parseIntHex (byteToHex b).data 0 % 256 = b := by
  have h1 := hexDigit?_hexChar (b / 16) (by omega)
  have h2 := hexDigit?_hexChar (b % 16) (by omega)
  simp only [data_byteToHex, parseIntHex, h1, h2]
  omega

theorem chunks2_data_bin2str (b : Nat) (l : List Nat) :
    chunks2 (bin2str (b :: l)).data
      = [hexChar (b / 16), hexChar (b % 16)] :: chunks2 (bin2str l).data := by
  rw [bin2str_cons, String.data_append, data_byteToHex]
  rfl

theorem chunksMap_bin2str (l : List Nat) (hb : ∀ b ∈ l, b < 256) :
    (chunks2 (bin2str l).data).map (fun c => parseIntHex c 0 % 256) = l := by
  induction l with
  | nil => rfl
  | cons b t ih =>
    rw [chunks2_data_bin2str, List.map_cons,
      ih (fun x hx => hb x (List.mem_cons_of_mem _ hx))]
    have := parse_byteToHex b (hb b (List.mem_cons_self _ _))
    rw [data_byteToHex] at this
    rw [this]

/-- Binary round-trip for every nonempty byte list: the hex encoding of
`#bin2str` decodes back through `#str2bin` to the original bytes. -/
theorem str2bin_bin2str (l : List Nat) (hne : l ≠ []) (hb : ∀ b ∈ l, b < 256) :
    str2bin (bin2str l) = some l := by
  have hm := chunksMap_bin2str l hb
  unfold str2bin
  split
  · next heq =>
    rw [heq] at hm
    simp only [List.map_nil] at hm
    exact absurd hm.symm hne
  · rw [hm]

end DOKVS

namespace DOKVS

/-! ### Row-count and membership lemmas -/

theorem countKey_nil (k : String) : countKey [] k = 0 := rfl

theorem countKey_cons (r : Row) (l : List Row) (k : String) :
    countKey (r :: l) k = countKey l k + (if r.key = k then 1 else 0) := by
  by_cases h : r.key = k <;> simp [countKey, List.filter_cons, h]

theorem countKey_append (l1 l2 : List Row) (k : String) :
    countKey (l1 ++ l2) k = countKey l1 k + countKey l2 k := by
  simp [countKey, List.filter_append]

theorem countKey_le_of_sublist {l1 l2 : List Row}
    (h : List.Sublist l1 l2) (k : String) : countKey l1 k ≤ countKey l2 k :=
  (h.filter _).length_le

theorem countKey_eq_zero (l : List Row) (k : String)
    (h : ∀ r ∈ l, r.key ≠ k) : countKey l k = 0 := by
  rw [countKey, List.length_eq_zero, List.filter_eq_nil_iff]
  intro r hr
  simp [h r hr]

theorem countKey_map_replace (l : List Row) (key v : String) (ttl vt : Int)
    (k : String) :
    countKey
        (l.map (fun r => if r.key = key then (⟨key, v, ttl, vt⟩ : Row) else r)) k
      = countKey l k := by
  induction l with
  | nil => rfl
  | cons a t ih =>
    by_cases h : a.key = key <;> simp [List.map_cons, countKey_cons, ih, h]

theorem mem_upsert {l : List Row} {key v : String} {ttl vt : Int} {r : Row}
    (h : r ∈ upsert l key v ttl vt) : r ∈ l ∨ r = ⟨key, v, ttl, vt⟩ := by
  unfold upsert at h
  split at h
  · rcases List.mem_map.1 h with ⟨a, ha, rfl⟩
    by_cases hk : a.key = key
    · simp [hk]
    · simp only [if_neg hk]
      exact Or.inl ha
  · rcases List.mem_append.1 h with h1 | h1
    · exact Or.inl h1
    · simp only [List.mem_singleton] at h1
      exact Or.inr h1

theorem countKey_upsert (l : List Row) (key v : String) (ttl vt : Int)
    (h : ∀ k, countKey l k ≤ 1) (k : String) :
    countKey (upsert l key v ttl vt) k ≤ 1 := by
  unfold upsert
  split
  · rw [countKey_map_replace]
    exact h k
  · next hany =>
    rw [countKey_append, countKey_cons, countKey_nil]
    by_cases hk : key = k
    · have h0 : countKey l k = 0 := by
        apply countKey_eq_zero
        intro r hr hrk
        exact hany (List.any_eq_true.2 ⟨r, hr, by simp [hrk, hk]⟩)
      simp [h0, hk]
    · simp only [if_neg hk]
      simpa using h k

/-! ### Cleanup and operation shape lemmas -/

theorem cleanup_rows_sublist (s : Store) (now : Int) :
    List.Sublist (cleanup s now).rows s.rows := by
  unfold cleanup
  split
  · exact List.Sublist.refl _
  · exact List.filter_sublist _

theorem delete_rows (s : Store) (key : String) :
    (delete s key).rows = s.rows.filter (fun r => !decide (r.key = key)) := rfl

theorem setCleanupInterval_rows (s : Store) (i : Int) (rb : Bool) (now : Int) :
    (setCleanupInterval s i rb now).rows = s.rows := by
  unfold setCleanupInterval
  split <;> rfl

theorem mem_put_rows {s : Store} {key : String} {value : KVValue}
    {e : Option Int} {now : Int} {r : Row}
    (h : r ∈ (put s key value e now).rows) :
    r ∈ s.rows
    ∨ (r = ⟨key, (toStoreValue value).1, e.getD 0, (toStoreValue value).2⟩
        ∧ (e.getD 0 = 0 ∨ now ≤ e.getD 0)) := by
  unfold put at h
  split at h
  · exact Or.inl h
  · next hc =>
    have h2 := (cleanup_rows_sublist _ _).subset h
    rcases mem_upsert h2 with h3 | h3
    · exact Or.inl h3
    · refine Or.inr ⟨h3, ?_⟩
      push_neg at hc
      by_cases h0 : e.getD 0 = 0
      · exact Or.inl h0
      · exact Or.inr (hc h0)

theorem put_rows_cases (s : Store) (key : String) (value : KVValue)
    (e : Option Int) (now : Int) :
    (put s key value e now).rows = s.rows
    ∨ List.Sublist (put s key value e now).rows
        (upsert s.rows key (toStoreValue value).1 (e.getD 0)
          (toStoreValue value).2) := by
  unfold put
  split
  · exact Or.inl rfl
  · exact Or.inr (cleanup_rows_sublist _ _)

/-! ### Reachability invariants -/

theorem reachable_rows_ok {s : Store} (h : Reachable s) :
    ∀ r ∈ s.rows, RowOk r := by
  induction h with
  | init => intro r hr; simp [initStore] at hr
  | stepPut key value e hs hnow ih =>
    intro r hr
    rcases mem_put_rows hr with h1 | ⟨rfl, h2⟩
    · exact ih r h1
    · constructor
      · show 0 ≤ e.getD 0
        rcases h2 with h2 | h2
        · omega
        · omega
      · show (toStoreValue value).2 = VTYPE_string
            ∨ (toStoreValue value).2 = VTYPE_buffer
        cases value <;> simp [toStoreValue]
  | stepDelete key hs ih =>
    intro r hr
    rw [delete_rows] at hr
    exact ih r (List.mem_of_mem_filter hr)
  | stepClear hs ih =>
    intro r hr
    simp [clear] at hr
  | stepSetInterval i rb now hs ih =>
    intro r hr
    rw [setCleanupInterval_rows] at hr
    exact ih r hr

theorem reachable_countKey {s : Store} (h : Reachable s) :
    ∀ k, countKey s.rows k ≤ 1 := by
  induction h with
  | init => intro k; simp [initStore, countKey]
  | stepPut key value e hs hnow ih =>
    intro k
    rcases put_rows_cases _ key value e _ with h1 | h1
    · rw [h1]; exact ih k
    · exact le_trans (countKey_le_of_sublist h1 k)
        (countKey_upsert _ _ _ _ _ ih k)
  | stepDelete key hs ih =>
    intro k
    rw [delete_rows]
    exact le_trans (countKey_le_of_sublist (List.filter_sublist _) k) (ih k)
  | stepClear hs ih =>
    intro k
    simp [clear, countKey]
  | stepSetInterval i rb now hs ih =>
    intro k
    rw [setCleanupInterval_rows]
    exact ih k

end DOKVS

namespace DOKVS

/-- `find?` locates an element that satisfies the predicate when it is
the only satisfying element of the list. -/
theorem find?_eq_some_of_mem {p : Row → Bool} {l : List Row} {r : Row}
    (hr : r ∈ l) (hp : p r = true) (huniq : ∀ r2 ∈ l, p r2 = true → r2 = r) :
    l.find? p = some r := by
  induction l with
  | nil => simp at hr
  | cons a t ih =>
    by_cases ha : p a = true
    · rw [List.find?_cons_of_pos _ ha, huniq a (List.mem_cons_self a t) ha]
    · rw [List.find?_cons_of_neg _ ha]
      rcases List.mem_cons.1 hr with rfl | hrt
      · exact absurd hp ha
      · exact ih hrt fun r2 hr2 hp2 => huniq r2 (List.mem_cons_of_mem _ hr2) hp2

/-! ### Claim theorems -/

/-- C1: for every key `k` and time `now`, `get` returns the stored
entry's decoded value exactly when a row for `k` exists and passes the
expiry filter (`ttl = 0` or `ttl ≥ now`), returns `none` when no row
for `k` is live, and mutates nothing (the store component of `getOp` is
unchanged).  The decoded value is `toUseValue` of the stored row. -/
theorem c1_get_contract (s : Store) (k : String) (now : Int)
    (huniq : ∀ r1 ∈ s.rows, ∀ r2 ∈ s.rows, r1.key = r2.key → r1 = r2) :
    ((∀ r ∈ s.rows, r.key = k → ¬rowLive r now) → get s k now = none)
    ∧ (∀ r ∈ s.rows, r.key = k → rowLive r now →
        ∀ v, toUseValue r.val r.vtype = some v → get s k now = some v)
    ∧ (getOp s k now).2 = s := by
  refine ⟨?_, ?_, rfl⟩
  · intro hdead
    have hnone : s.rows.find? (fun r => decide (r.key = k ∧ rowLive r now))
        = none := by
      rw [List.find?_eq_none]
      intro r hr
      simp only [decide_eq_true_eq]
      rintro ⟨hk, hl⟩
      exact hdead r hr hk hl
    unfold get
    rw [hnone]
  · intro r hr hk hl v hv
    have hfind : s.rows.find? (fun r => decide (r.key = k ∧ rowLive r now))
        = some r := by
      apply find?_eq_some_of_mem hr
      · simp only [decide_eq_true_eq]
        exact ⟨hk, hl⟩
      · intro r2 hr2 hp2
        simp only [decide_eq_true_eq] at hp2
        exact huniq r2 hr2 r hr (hp2.1.trans hk.symm)
    unfold get
    rw [hfind]
    exact hv

/-- C1 witness: a live never-expiring string row is returned decoded. -/
theorem c1_get_contract_witness :
    get ⟨[⟨"k", "hi", 0, 0⟩], 86400, 0⟩ "k" 5 = some (KVValue.str "hi") := by
  have h := c1_get_contract ⟨[⟨"k", "hi", 0, 0⟩], 86400, 0⟩ "k" 5 (by decide)
  exact h.2.1 ⟨"k", "hi", 0, 0⟩ (by simp) rfl (by decide) _ rfl

end DOKVS

namespace DOKVS

/-- C2: the binary round-trip fails at the zero-length byte sequence:
`#bin2str []` is `""`, and `#str2bin ""` hits the `null` result of
`"".match(/.{2}/g)` (modelled `none`, a thrown `TypeError` in the
source) instead of producing `[]`; a nonempty sequence containing
`0x00` round-trips fine. -/
theorem c2_binary_roundtrip_empty_bug :
    bin2str [] = "" ∧ str2bin "" = none
    ∧ str2bin (bin2str []) ≠ some ([] : List Nat)
    ∧ bin2str [0, 255, 16] = "00ff10"
    ∧ str2bin (bin2str [0, 255, 16]) = some [0, 255, 16] := by
  refine ⟨rfl, rfl, by decide, by decide, by decide⟩

/-- C3: a `put` whose truncated expiration is nonzero and strictly
before the current time is a silent no-op: the store (rows, interval
and sweep timing alike) is returned unchanged. -/
theorem c3_expired_write_noop (s : Store) (k : String) (v : KVValue)
    (e now : Int) (h1 : e ≠ 0) (h2 : e < now) :
    put s k v (some e) now = s := by
  unfold put
  rw [if_pos]
  exact ⟨h1, h2⟩

/-- C3 witness: writing with expiration 1 at time 5 changes nothing. -/
theorem c3_expired_write_noop_witness :
    put initStore "k" (KVValue.str "v") (some 1) 5 = initStore :=
  c3_expired_write_noop initStore "k" (KVValue.str "v") 1 5 (by decide)
    (by decide)

/-- C4: every reachable store state has at most one row per key, and
an accepted `put` on an existing key replaces the row as an upsert:
after `put("a","1")` then `put("a","2")` the table holds the single row
`("a","2")` and `get("a")` returns `"2"`. -/
theorem c4_upsert_unique (s : Store) (h : Reachable s) (k : String) :
    countKey s.rows k ≤ 1
    ∧ (put (put initStore "a" (KVValue.str "1") none 0) "a"
        (KVValue.str "2") none 0).rows = [⟨"a", "2", 0, 0⟩]
    ∧ get (put (put initStore "a" (KVValue.str "1") none 0) "a"
        (KVValue.str "2") none 0) "a" 0 = some (KVValue.str "2") :=
  ⟨reachable_countKey h k, by decide, by decide⟩

/-- C4 witness: applied to the reachable one-write store. -/
theorem c4_upsert_unique_witness :
    countKey (put initStore "a" (KVValue.str "1") none 0).rows "a" ≤ 1 :=
  (c4_upsert_unique _
    (Reachable.stepPut "a" (KVValue.str "1") none Reachable.init
      (by decide)) "a").1

end DOKVS

namespace DOKVS

/-- C5 counterexample: with the prefix `"%"` (the catch-all wildcard the
source passes through unchanged) `list` returns the key `"a"`, which
does not start with the string `"%"` — so "every returned key starts
with the string p" is false as stated. -/
theorem c5_list_counterexample :
    list ⟨[⟨"a", "x", 0, 0⟩], 86400, 0⟩ (some "%") none false 0 = [("a", 0)]
    ∧ "%".data.isPrefixOf "a".data = false := by
  refine ⟨by decide, by decide⟩

/-- C5 amended: `list` returns at most `limit` entries where the limit
is clamped to `[1, 1000]` and defaults to 1000, and every returned pair
is the `(key, expires_at)` of a stored row whose key matches the SQL
LIKE pattern built from the prefix (`p + "%"`, a bare `"%"` passed
through; `%`/`_` are wildcards and ASCII letters compare
case-insensitively), the row being live unless `ignoreExpiry` is
set. -/
theorem c5_list_contract (s : Store) (pfx : Option String)
    (lim : Option Int) (ig : Bool) (now : Int) :
    (list s pfx lim ig now).length ≤ (listLimit lim).toNat
    ∧ 1 ≤ listLimit lim ∧ listLimit lim ≤ 1000 ∧ listLimit none = 1000
    ∧ ∀ kt ∈ list s pfx lim ig now,
        ∃ r ∈ s.rows, kt.1 = r.key ∧ kt.2 = r.ttl
          ∧ likeMatch (listPattern pfx) r.key = true
          ∧ (ig = true ∨ rowLive r now) := by
  refine ⟨?_, ?_, min_le_right _ _, rfl, ?_⟩
  · unfold list
    rw [List.length_map, List.length_take]
    exact min_le_left _ _
  · unfold listLimit
    exact le_min (le_max_right _ _) (by norm_num)
  · intro kt hkt
    unfold list at hkt
    rcases List.mem_map.1 hkt with ⟨r, hr, rfl⟩
    have hr2 := List.take_subset _ _ hr
    have hmem := (List.mem_filter.1 hr2).1
    have hp := (List.mem_filter.1 hr2).2
    rw [Bool.and_eq_true] at hp
    refine ⟨r, hmem, rfl, rfl, hp.1, ?_⟩
    cases ig with
    | true => exact Or.inl rfl
    | false =>
      right
      have := hp.2
      simp only [if_neg Bool.false_ne_true, decide_eq_true_eq] at this
      exact this

/-- C5 witness: one row, limit 1, concrete instantiation. -/
theorem c5_list_contract_witness :
    (list ⟨[⟨"a", "x", 0, 0⟩], 86400, 0⟩ (some "a") (some 1) false 5).length
      ≤ (listLimit (some 1)).toNat
    ∧ (1 : Int) ≤ listLimit (some 1)
    ∧ ∃ r ∈ ([⟨"a", "x", 0, 0⟩] : List Row),
        (("a", (0 : Int)) : String × Int).1 = r.key
        ∧ (("a", (0 : Int)) : String × Int).2 = r.ttl
        ∧ likeMatch (listPattern (some "a")) r.key = true
        ∧ (false = true ∨ rowLive r 5) := by
  have h := c5_list_contract ⟨[⟨"a", "x", 0, 0⟩], 86400, 0⟩ (some "a")
    (some 1) false 5
  exact ⟨h.1, h.2.1, h.2.2.2.2 ("a", 0) (by decide)⟩

/-- C6 counterexample: at `now = 5` with `#timing = 5` the claim's
condition `now ≥ next_sweep_time` holds and an expired row (`ttl = 3`)
is present, yet `#cleanup` leaves the store — rows and timing —
entirely unchanged: the guard `if (timing >= now) return` skips the
sweep at equality. -/
theorem c6_cleanup_boundary_counterexample :
    (5 : Int) ≥ (Store.mk [⟨"k", "v", 3, 0⟩] 100 5).timing
    ∧ cleanup ⟨[⟨"k", "v", 3, 0⟩], 100, 5⟩ 5 = ⟨[⟨"k", "v", 3, 0⟩], 100, 5⟩
    ∧ (0 : Int) < 3 ∧ (3 : Int) < 5
    ∧ (cleanup ⟨[⟨"k", "v", 3, 0⟩], 100, 5⟩ 5).timing ≠ 5 + 100 := by
  refine ⟨by decide, by decide, by decide, by decide, by decide⟩

/-- C6 amended: the throttled sweep executes exactly when
`now > next_sweep_time` (strictly; at `now = next_sweep_time` the state
is unchanged); when it executes, `next_sweep_time` becomes
`now + interval` and exactly the rows with `0 < ttl < now` are deleted.
The default interval is 86400 seconds. -/
theorem c6_cleanup_throttle (s : Store) (now : Int) :
    (now ≤ s.timing → cleanup s now = s)
    ∧ (s.timing < now →
        (cleanup s now).timing = now + s.interval
        ∧ (cleanup s now).interval = s.interval
        ∧ ∀ r : Row,
            (r ∈ (cleanup s now).rows ↔ r ∈ s.rows ∧ ¬(0 < r.ttl ∧ r.ttl < now)))
    ∧ initStore.interval = 86400 := by
  refine ⟨?_, ?_, rfl⟩
  · intro h
    unfold cleanup
    rw [if_pos h]
  · intro h
    have hc : ¬(s.timing ≥ now) := not_le.2 h
    unfold cleanup
    rw [if_neg hc]
    refine ⟨rfl, rfl, ?_⟩
    intro r
    rw [List.mem_filter]
    simp only [Bool.not_eq_true', decide_eq_false_iff_not]

/-- C6 witness: timing 9 blocks a sweep at time 5; timing 0 lets the
sweep at time 5 reset the timer to 105 and purge the expired row. -/
theorem c6_cleanup_throttle_witness :
    cleanup ⟨[⟨"k", "v", 3, 0⟩], 100, 9⟩ 5 = ⟨[⟨"k", "v", 3, 0⟩], 100, 9⟩
    ∧ (cleanup ⟨[⟨"k", "v", 3, 0⟩], 100, 0⟩ 5).timing = 5 + 100
    ∧ (⟨"k", "v", 3, 0⟩ : Row) ∉ (cleanup ⟨[⟨"k", "v", 3, 0⟩], 100, 0⟩ 5).rows := by
  have h1 := c6_cleanup_throttle ⟨[⟨"k", "v", 3, 0⟩], 100, 9⟩ 5
  have h2 := c6_cleanup_throttle ⟨[⟨"k", "v", 3, 0⟩], 100, 0⟩ 5
  refine ⟨h1.1 (by decide), (h2.2.1 (by decide)).1, ?_⟩
  intro hmem
  have hiff := ((h2.2.1 (by decide)).2.2 ⟨"k", "v", 3, 0⟩).1 hmem
  exact hiff.2 (by decide)

end DOKVS

namespace DOKVS

/-- C7 counterexample: when the persisted flag is unset, the bootstrap
trace is flag-set *first*, then table creation, then index creation —
not the claimed create-table, create-index, then set-flag order. -/
theorem c7_bootstrap_counterexample :
    schemaInit false
      = (true, [BootAction.setFlag, BootAction.createTable,
          BootAction.createIndex])
    ∧ schemaInit false
      ≠ (true, [BootAction.createTable, BootAction.createIndex,
          BootAction.setFlag]) := by
  refine ⟨by decide, by decide⟩

/-- C7 amended: schema bootstrap checks the persisted flag first; if it
is unset it sets the flag and then creates the table and the expiry
index; if it is set it does nothing, so the creation sequence runs at
most once (a second run after any first run performs no actions). -/
theorem c7_bootstrap_contract :
    schemaInit true = (true, [])
    ∧ schemaInit false = (true, createTableActions)
    ∧ createTableActions
      = [BootAction.setFlag, BootAction.createTable, BootAction.createIndex]
    ∧ (∀ f : Bool, (schemaInit f).1 = true)
    ∧ (∀ f : Bool, schemaInit (schemaInit f).1 = (true, [])) := by
  refine ⟨rfl, rfl, rfl, ?_, ?_⟩ <;> decide

/-- C8 counterexample: at a state where the throttled sweep is due
(`#timing = 0 < now = 5`) and an expired row (`ttl = 1`) exists,
`delete` of another key changes nothing at all — in particular it does
not run the sweep, which would have purged the row and moved the timer
to 15 — and `clear` likewise leaves the sweep timer untouched. -/
theorem c8_delete_no_sweep_counterexample :
    delete ⟨[⟨"old", "v", 1, 0⟩], 10, 0⟩ "x" = ⟨[⟨"old", "v", 1, 0⟩], 10, 0⟩
    ∧ cleanup ⟨[⟨"old", "v", 1, 0⟩], 10, 0⟩ 5 = ⟨[], 10, 15⟩
    ∧ clear ⟨[⟨"old", "v", 1, 0⟩], 10, 0⟩ = ⟨[], 10, 0⟩
    ∧ (10 : Int) ≠ 15 ∧ ((0 : Int) ≠ 15 ∧ (0 : Int) < 5) := by
  refine ⟨by decide, by decide, by decide, by decide, by decide⟩

/-- C8 amended: only `put` triggers the throttled sweep (an accepted
`put` is exactly upsert followed by `#cleanup`); `delete` and `clear`
never touch the sweep timer or interval, and the reads `get` and `list`
mutate nothing. -/
theorem c8_only_put_sweeps (s : Store) (k : String) (value : KVValue)
    (pfx : Option String) (lim : Option Int) (ig : Bool) (now : Int) :
    put s k value none now
      = cleanup
          { s with
            rows := upsert s.rows k (toStoreValue value).1 0
              (toStoreValue value).2 }
          now
    ∧ (delete s k).timing = s.timing
    ∧ (delete s k).interval = s.interval
    ∧ (clear s).timing = s.timing
    ∧ (clear s).interval = s.interval
    ∧ (getOp s k now).2 = s
    ∧ (listOp s pfx lim ig now).2 = s := by
  refine ⟨?_, rfl, rfl, rfl, rfl, rfl, rfl⟩
  unfold put
  rw [if_neg]
  · rfl
  · simp

/-- C9: `setCleanupInterval` ignores non-positive intervals entirely;
a positive interval is stored, the rows are untouched, and the sweep
timer is rescheduled to `now + interval` exactly when `reset` is set. -/
theorem c9_set_interval (s : Store) (i : Int) (reset : Bool) (now : Int) :
    (i ≤ 0 → setCleanupInterval s i reset now = s)
    ∧ (0 < i →
        (setCleanupInterval s i reset now).interval = i
        ∧ (setCleanupInterval s i reset now).rows = s.rows
        ∧ (reset = true → (setCleanupInterval s i reset now).timing = now + i)
        ∧ (reset = false → (setCleanupInterval s i reset now).timing = s.timing)) := by
  constructor
  · intro h
    unfold setCleanupInterval
    rw [if_pos h]
  · intro h
    have hc : ¬(i ≤ 0) := not_le.2 h
    unfold setCleanupInterval
    rw [if_neg hc]
    refine ⟨rfl, rfl, ?_, ?_⟩ <;> intro hr <;> simp [hr]

/-- C9 witness: `-1` is ignored; `5` with reset at time 7 yields timer 12. -/
theorem c9_set_interval_witness :
    setCleanupInterval initStore (-1) false 0 = initStore
    ∧ (setCleanupInterval initStore 5 true 7).timing = 12 := by
  have h1 := c9_set_interval initStore (-1) false 0
  have h2 := c9_set_interval initStore 5 true 7
  refine ⟨h1.1 (by decide), ?_⟩
  rw [(h2.2 (by decide)).2.2.1 rfl]
  norm_num

/-- C10: in every reachable state (operations invoked at nonnegative
times) each persisted row has `ttl ≥ 0` and `vtype ∈ {0, 1}` (so
decoding never falls through to the unknown-kind branch), and `list`
with `ignoreExpiry` — which substitutes timestamp 0 into the liveness
predicate — filters out no physically present row: it returns exactly
the LIKE-matching rows up to the limit. -/
theorem c10_reachable_invariant (s : Store) (h : Reachable s) :
    (∀ r ∈ s.rows, 0 ≤ r.ttl ∧ (r.vtype = VTYPE_string ∨ r.vtype = VTYPE_buffer))
    ∧ ∀ pfx lim now, list s pfx lim true now
        = ((s.rows.filter (fun r => likeMatch (listPattern pfx) r.key)).take
            (listLimit lim).toNat).map (fun r => (r.key, r.ttl)) := by
  have hok := reachable_rows_ok h
  refine ⟨hok, ?_⟩
  intro pfx lim now
  unfold list
  have hfeq : s.rows.filter
        (fun r => likeMatch (listPattern pfx) r.key
          && decide (rowLive r (if true then 0 else now)))
      = s.rows.filter (fun r => likeMatch (listPattern pfx) r.key) := by
    apply List.filter_congr
    intro r hr
    have h0 : rowLive r (if true then 0 else now) := by
      simp only [if_pos trivial]
      exact Or.inr (hok r hr).1
    simp [h0]
    exact fun _ => Or.inr (hok r hr).1
  rw [hfeq]

/-- C10 witness: the reachable one-write store, listed with the expiry
filter disabled. -/
theorem c10_reachable_invariant_witness :
    list (put initStore "a" (KVValue.str "1") none 0) none none true 7
      = (((put initStore "a" (KVValue.str "1") none 0).rows.filter
          (fun r => likeMatch (listPattern none) r.key)).take
            (listLimit none).toNat).map (fun r => (r.key, r.ttl)) :=
  (c10_reachable_invariant _
    (Reachable.stepPut "a" (KVValue.str "1") none Reachable.init
      (by decide))).2 none none 7

end DOKVS
